import Mathlib

/-!
Verification development for wezterm's `sync-color-schemes` tool
(`sync-color-schemes/src/main.rs`): the cache-backed fetch layer and the
`SchemeSet` merge/dedup engine.  Rust `HashMap`s / `BTreeMap`s are embedded as
association lists (with the convention that the scan in `SchemeSet::add`
iterates in list order; the Rust `HashMap` iteration order is arbitrary, and
every property below is stated relative to the model's deterministic order).
Machine integers are `Nat` with explicit bounds where the source parses `u64`.
-/

/-- Color palette of a scheme.  The concrete palette type lives in wezterm's
`config` crate, outside this tree; `main.rs` relies only on structural
equality, on the presence test of the `ansi` block and on a canonical
serialization, so it is modelled as a small record of optional color data.
Identity of schemes for merge purposes is structural equality of this value. -/
structure Palette where
  ansi : Option (List String)
  brights : Option (List String)
  foreground : Option String
  background : Option String
deriving DecidableEq

/-- Scheme metadata as used by `main.rs`: `name`, `aliases`, `origin_url`,
`wezterm_version` (the fields of `config::ColorSchemeMetaData` the tool reads
or writes). -/
structure ColorSchemeMetaData where
  name : Option String
  aliases : List String
  origin_url : Option String
  wezterm_version : Option String
deriving DecidableEq

/-- A scheme document: colors plus metadata (`config::ColorSchemeFile`). -/
structure ColorSchemeFile where
  colors : Palette
  metadata : ColorSchemeMetaData
deriving DecidableEq

/-- A named scheme record (`scheme::Scheme`): visible through its use in
`main.rs` as a record of `name`, `file_name` and `data`, compared with
derived structural equality. -/
structure Scheme where
  name : String
  file_name : Option String
  data : ColorSchemeFile
deriving DecidableEq

/-- Serialization helper: comma-joined list. -/
def serializeStrList : List String → String
  | [] => ""
  | [x] => x
  | x :: y :: rest => x ++ "," ++ serializeStrList (y :: rest)

/-- Serialization helper for an optional list of colors. -/
def serializeOptList : Option (List String) → String
  | none => "null"
  | some l => "list(" ++ serializeStrList l ++ ")"

/-- Serialization helper for an optional string. -/
def serializeOptStr : Option String → String
  | none => "null"
  | some s => "str(" ++ s ++ ")"

/-- Canonical serialization of a palette: models `serde_json::to_string` of
the `colors` value, used both by `load_existing` (indexing the previous
dataset) and by `add` (looking a candidate up); both sites serialize the same
structured value with the same serializer, so one canonical function models
both. -/
def serializePalette (p : Palette) : String :=
  "(ansi:" ++ serializeOptList p.ansi ++
  ";brights:" ++ serializeOptList p.brights ++
  ";foreground:" ++ serializeOptStr p.foreground ++
  ";background:" ++ serializeOptStr p.background ++ ")"

/-- Association-list lookup, modelling `HashMap::get` / `BTreeMap::get`. -/
def alookup {α : Type} (k : String) : List (String × α) → Option α
  | [] => none
  | (k', v) :: rest => if k' = k then some v else alookup k rest

/-- Association-list insert-or-overwrite, modelling `HashMap::insert` /
`BTreeMap::insert`. -/
def ainsert {α : Type} (k : String) (v : α) : List (String × α) → List (String × α)
  | [] => [(k, v)]
  | (k', v') :: rest => if k' = k then (k, v) :: rest else (k', v') :: ainsert k v rest

/-- Removal of a key, modelling `HashMap::remove` in `SchemeSet::add`. -/
def removeName (n : String) : List (String × Scheme) → List (String × Scheme)
  | [] => []
  | p :: rest => if p.1 = n then removeName n rest else p :: removeName n rest

/-- The registry state (`struct SchemeSet` in `main.rs`). -/
structure SchemeSet where
  by_name : List (String × Scheme)
  version_by_color_scheme : List (String × String)
  version_by_name : List (String × String)

/-- The match test of the exact-match scan in `SchemeSet::add`:
`candidate == *existing || candidate.data.colors == existing.data.colors`. -/
def schemeMatch (c e : Scheme) : Prop :=
  c = e ∨ c.data.colors = e.data.colors

instance : DecidableRel schemeMatch := fun c e =>
  inferInstanceAs (Decidable (c = e ∨ c.data.colors = e.data.colors))

/-- Append a name to an entry's alias list
(`existing.data.metadata.aliases.push(candidate.name)`). -/
def pushAlias (e : Scheme) (n : String) : Scheme :=
  { e with data.metadata.aliases := e.data.metadata.aliases ++ [n] }

/-- The exact-match scan of `SchemeSet::add` (the `for existing in
self.by_name.values_mut()` loop): returns the updated entry list when some
entry matches the candidate (the first such in iteration order gains the
candidate's name as an alias), `none` when no entry matches. -/
def scanAdd (c : Scheme) : List (String × Scheme) → Option (List (String × Scheme))
  | [] => none
  | (k, e) :: rest =>
    if schemeMatch c e then some ((k, pushAlias e c.name) :: rest)
    else match scanAdd c rest with
      | some rest' => some ((k, e) :: rest')
      | none => none

/-- The alias loop of the version-resolution chain in `SchemeSet::add`:
first alias (in listed order) found in `version_by_name`. -/
def firstAliasVersion (vbn : List (String × String)) : List String → Option String
  | [] => none
  | a :: rest => match alookup a vbn with
    | some v => some v
    | none => firstAliasVersion vbn rest

/-- The version-resolution chain of `SchemeSet::add`: serialized palette in
`version_by_color_scheme`, or else candidate name in `version_by_name`, or
else first declared alias found in `version_by_name`. -/
def resolveVersionLookup (s : SchemeSet) (c : Scheme) : Option String :=
  match alookup (serializePalette c.data.colors) s.version_by_color_scheme with
  | some v => some v
  | none => match alookup c.name s.version_by_name with
    | some v => some v
    | none => firstAliasVersion s.version_by_name c.data.metadata.aliases

/-- Stamp the resolved version onto the candidate
(`candidate.data.metadata.wezterm_version.replace(version)`); no hit leaves
the field untouched. -/
def stampVersion (c : Scheme) : Option String → Scheme
  | some v => { c with data.metadata.wezterm_version := some v }
  | none => c

/-- `SchemeSet::add`: exact-match scan; else version resolution; then
name-collision handling (alias carry-forward) and insert. -/
def SchemeSet.add (s : SchemeSet) (c : Scheme) : SchemeSet :=
  match scanAdd c s.by_name with
  | some updated => { s with by_name := updated }
  | none =>
    let c1 := stampVersion c (resolveVersionLookup s c)
    let c2 := match alookup c1.name s.by_name with
      | some existing => { c1 with data.metadata.aliases := existing.data.metadata.aliases }
      | none => c1
    { s with by_name := removeName c1.name s.by_name ++ [(c2.name, c2)] }

/-- `SchemeSet::accumulate`: fold `add` over a batch of candidates. -/
def SchemeSet.accumulate (s : SchemeSet) (to_add : List Scheme) : SchemeSet :=
  to_add.foldl SchemeSet.add s

/-- One record of the previously published canonical dataset
(`docs/colorschemes/data.json`), as deserialized by `load_existing`. -/
structure ExistingEntry where
  colors : Palette
  name : String
  aliases : List String
  wezterm_version : Option String
  origin_url : Option String
deriving DecidableEq

/-- First pass of `load_existing`: build `version_by_color_scheme` and
`version_by_name` from records that carry a `wezterm_version`.  The source
also builds a local `names_by_color_scheme` map in this loop, but never reads
it afterwards, so it is omitted from the state. -/
def loadMapsAux (vbc vbn : List (String × String)) :
    List ExistingEntry → List (String × String) × List (String × String)
  | [] => (vbc, vbn)
  | e :: rest => match e.wezterm_version with
    | some v => loadMapsAux (ainsert (serializePalette e.colors) v vbc) (ainsert e.name v vbn) rest
    | none => loadMapsAux vbc vbn rest

/-- The `Scheme` value rebuilt for `by_name` by the second pass of
`load_existing`. -/
def entryScheme (e : ExistingEntry) : Scheme :=
  { name := e.name
    file_name := none
    data :=
      { colors := e.colors
        metadata :=
          { name := some e.name
            aliases := e.aliases
            origin_url := e.origin_url
            wezterm_version := e.wezterm_version } } }

/-- Second pass of `load_existing`: rebuild `by_name` from records whose
`colors.ansi` block is present (records lacking it are skipped). -/
def loadByName (m : List (String × Scheme)) : List ExistingEntry → List (String × Scheme)
  | [] => m
  | e :: rest =>
    if e.colors.ansi = none then loadByName m rest
    else loadByName (ainsert e.name (entryScheme e) m) rest

/-- `SchemeSet::load_existing`, as a pure function of the decoded previous
dataset (file IO and JSON decoding of `data.json` are outside the model). -/
def load_existing (entries : List ExistingEntry) : SchemeSet :=
  { by_name := loadByName [] entries
    version_by_color_scheme := (loadMapsAux [] [] entries).1
    version_by_name := (loadMapsAux [] [] entries).2 }

/-- Split a character list at the first `=`, modelling Rust's
`value.splitn(2, "=")`: the second component is `none` exactly when no `=`
occurs (one field), otherwise it holds everything after the first `=`. -/
def splitFirstEq : List Char → List Char × Option (List Char)
  | [] => ([], none)
  | c :: rest =>
    if c = '=' then ([], some rest)
    else match splitFirstEq rest with
      | (before, after) => (c :: before, after)

/-- Decimal accumulation for `u64` parsing. -/
def parseDigits : List Char → Nat → Option Nat
  | [], acc => some acc
  | c :: rest, acc =>
    if '0' ≤ c ∧ c ≤ '9' then parseDigits rest (acc * 10 + (c.toNat - 48))
    else none

/-- Rust's `str::parse::<u64>`: an optional leading `+`, then a nonempty run
of decimal digits, rejecting values outside `u64` range. -/
def parseU64L (l : List Char) : Option Nat :=
  let l' := match l with
    | '+' :: rest => rest
    | _ => l
  match l' with
  | [] => none
  | _ :: _ =>
    match parseDigits l' 0 with
    | some n => if n < 18446744073709551616 then some n else none
    | none => none

/-- `parse::<u64>` on a string. -/
def parseU64 (s : String) : Option Nat := parseU64L s.data

/-- TTL resolution of `fetch_url`: default 86400 seconds; overridden by the
value after the first `=` of the cache-control header when everything before
that `=` is exactly `max-age` and the value parses as `u64`. -/
def parse_ttl : Option String → Nat
  | none => 86400
  | some value =>
    match splitFirstEq value.data with
    | (f0, some f1) =>
      if f0 = "max-age".data then
        match parseU64L f1 with
        | some n => n
        | none => 86400
      else 86400
    | (_, none) => 86400

/-- An HTTP response as observed by `fetch_url`: status code, the
cache-control header (when present and representable as a string), and the
body. -/
structure HttpResponse where
  status : Nat
  cache_control : Option String
  body : String

/-- Cache state: url key mapped to cached body and expiry timestamp.
Modelled from the spec: the sqlite-backed CacheStore maps a resource key to
cached bytes plus an expiry time (the `sqlite_cache` crate is an external
collaborator). -/
abbrev CacheState := List (String × (String × Nat))

/-- Modelled from the spec: a live (non-expired) cache entry is returned as a
hit; an absent or expired entry is a miss. -/
def cacheGetLive (cache : CacheState) (url : String) (now : Nat) : Option String :=
  match alookup url cache with
  | some (d, expiry) => if now < expiry then some d else none
  | none => none

/-- Modelled from the spec: `updater.write(&data, ttl)` atomically
inserts/replaces the entry with the given expiry. -/
def cacheWrite (cache : CacheState) (url : String) (body : String) (expiry : Nat) : CacheState :=
  ainsert url (body, expiry) cache

/-- `fetch_url`, one step for one url: the network exchange is abstracted as
the `HttpResponse` the server would give at this moment.  A cache hit is
returned directly; otherwise the TTL is resolved from the response headers,
a non-200 status fails with the response body as the error detail (leaving
the cache untouched), and a 200 status writes the body to the cache with the
resolved TTL and returns it. -/
def fetch_url (cache : CacheState) (url : String) (now : Nat) (resp : HttpResponse) :
    Except String String × CacheState :=
  match cacheGetLive cache url now with
  | some d => (Except.ok d, cache)
  | none =>
    let ttl := parse_ttl resp.cache_control
    if resp.status ≠ 200 then (Except.error resp.body, cache)
    else (Except.ok resp.body, cacheWrite cache url resp.body (now + ttl))

/-- Comma splitting of a header value (accumulator-based). -/
def splitCommaAux (acc : List Char) : List Char → List (List Char)
  | [] => [acc.reverse]
  | c :: rest =>
    if c = ',' then acc.reverse :: splitCommaAux [] rest
    else splitCommaAux (c :: acc) rest

/-- Strip leading and trailing spaces. -/
def trimSpaces (l : List Char) : List Char :=
  ((l.dropWhile (fun c => c = ' ')).reverse.dropWhile (fun c => c = ' ')).reverse

/-- Scan comma-separated directives for the first `max-age=<numeric>`. -/
def specFindMaxAge : List (List Char) → Option Nat
  | [] => none
  | d :: rest =>
    match splitFirstEq (trimSpaces d) with
    | (f0, some f1) =>
      if f0 = "max-age".data then
        match parseU64L f1 with
        | some n => some n
        | none => specFindMaxAge rest
      else specFindMaxAge rest
    | (_, none) => specFindMaxAge rest

/-- Modelled from the spec: a cache-control header value "contains a
`max-age=<seconds>` token with a numeric value" when some comma-separated
directive of it, after trimming spaces, is exactly `max-age=` followed by a
numeric value; the function yields that value. -/
def specMaxAgeToken (v : String) : Option Nat :=
  specFindMaxAge (splitCommaAux [] v.data)

/-- Rust `char::to_ascii_lowercase`: shift exactly the ASCII uppercase
range down by 32. -/
def asciiToLower (c : Char) : Char :=
  if 'A' ≤ c ∧ c ≤ 'Z' then Char.ofNat (c.toNat + 32) else c

/-- ASCII alphanumeric test matching the ranges of the `match` in
`make_prefix`. -/
def isAsciiAlnum (c : Char) : Bool :=
  decide (('0' ≤ c ∧ c ≤ '9') ∨ ('a' ≤ c ∧ c ≤ 'z') ∨ ('A' ≤ c ∧ c ≤ 'Z'))

/-- Scan of `make_prefix`: the first character of the name falling in the
ASCII ranges `0`-`9`, `a`-`z` (kept as is) or `A`-`Z` (lowercased); `none`
models the `panic!("no good prefix")` of the source when no character
qualifies. -/
def makePrefixChar : List Char → Option Char
  | [] => none
  | c :: rest =>
    if ('0' ≤ c ∧ c ≤ '9') ∨ ('a' ≤ c ∧ c ≤ 'z') then some c
    else if 'A' ≤ c ∧ c ≤ 'Z' then some (asciiToLower c)
    else makePrefixChar rest

/-- Rust `str::to_ascii_lowercase`. -/
def lowerString (s : String) : String := String.mk (s.data.map asciiToLower)

/-- `make_prefix`: the sort key `(first alphanumeric character lowercased,
whole name ascii-lowercased)`; `none` models the panic on a name with no
ASCII alphanumeric character. -/
def makePrefixKey (key : String) : Option (Char × String) :=
  match makePrefixChar key.data with
  | some c => some (c, lowerString key)
  | none => none

/-- Byte-lexicographic string order of Rust's `Ord for String`, expressed on
the character lists (UTF-8 byte order and codepoint order agree). -/
def charsLeB : List Char → List Char → Bool
  | [], _ => true
  | _ :: _, [] => false
  | a :: xs, b :: ys =>
    if a < b then true
    else if b < a then false
    else charsLeB xs ys

/-- Lexicographic order on the `(char, String)` sort key, as used by
`all.sort_by_key(|s| make_prefix(&s.name))`. -/
def keyLeB (x y : Char × String) : Bool :=
  if x.1 < y.1 then true
  else if y.1 < x.1 then false
  else charsLeB x.2.data y.2.data

/-- Order on schemes induced by the `make_prefix` sort key (a `none` key only
arises where the source would panic; it is placed first to keep the relation
total). -/
def schemeLeB (a b : Scheme) : Bool :=
  match makePrefixKey a.name, makePrefixKey b.name with
  | none, _ => true
  | some _, none => false
  | some x, some y => keyLeB x y

/-- Sort relation on schemes for `bake_for_config`. -/
def schemeSortRel (a b : Scheme) : Prop := schemeLeB a b = true

instance : DecidableRel schemeSortRel := fun a b =>
  inferInstanceAs (Decidable (schemeLeB a b = true))

/-- String order relation used for `aliases.sort()`. -/
def aliasStrLe (a b : String) : Prop := charsLeB a.data b.data = true

instance : DecidableRel aliasStrLe := fun a b =>
  inferInstanceAs (Decidable (charsLeB a.data b.data = true))

/-- Rust `Vec::dedup`: remove consecutive duplicates. -/
def dedupAdj : List String → List String
  | [] => []
  | [x] => [x]
  | x :: y :: rest =>
    if x = y then dedupAdj (y :: rest)
    else x :: dedupAdj (y :: rest)

/-- Alias normalization of `bake_for_config` for one entry: sort, dedup,
drop the self-reference. -/
def cleanupAliases (s : Scheme) : Scheme :=
  let cleaned := (dedupAdj (List.insertionSort aliasStrLe s.data.metadata.aliases)).filter (fun a => a != s.name)
  { s with data.metadata.aliases := cleaned }

/-- The entry list of `bake_for_config` after alias cleanup and the
`sort_by_key(make_prefix)` sort (a stable sort, modelled by insertion
sort). -/
def bakeAll (l : List Scheme) : List Scheme :=
  List.insertionSort schemeSortRel (l.map cleanupAliases)

/-- `bake_for_config`'s sorted output guarded by the `make_prefix` panic:
`none` when some entry's name has no ASCII alphanumeric character (the run
aborts there), the sorted list otherwise. -/
def bakeAllOk (l : List Scheme) : Option (List Scheme) :=
  if (l.map cleanupAliases).all (fun s => (makePrefixKey s.name).isSome) then some (bakeAll l)
  else none

/-- One `.toml` entry of a fetched source archive as seen by `sync_toml`:
the file stem of its path and the outcome of
`ColorSchemeFile::from_toml_str` on its contents (the TOML parser is an
external collaborator; its outcome is the model's input). -/
structure TomlEntry where
  stem : String
  parsed : Except String ColorSchemeFile

/-- Candidate construction of `sync_toml` for one successfully parsed entry:
name defaults to the file stem, the suffix is appended, `origin_url`
defaults to the repo url, and the nightly version marker is applied. -/
def prepareScheme (repo_url suffix stem : String) (file : ColorSchemeFile) : Scheme :=
  let name := (match file.metadata.name with
    | some n => n
    | none => stem) ++ suffix
  { name := name
    file_name := none
    data :=
      { file with metadata :=
          { file.metadata with
              name := some name
              origin_url := match file.metadata.origin_url with
                | none => some repo_url
                | some u => some u
              wezterm_version := some "nightly builds only" } } }

/-- The entry loop of `sync_toml` over the `.toml` entries of one archive:
a parsed entry is merged via `add`, a parse failure is logged and skipped;
the loop itself never fails. -/
def syncTomlEntries (s : SchemeSet) (repo_url suffix : String) :
    List TomlEntry → Except String SchemeSet
  | [] => Except.ok s
  | e :: rest =>
    match e.parsed with
    | Except.ok f => syncTomlEntries (s.add (prepareScheme repo_url suffix e.stem f)) repo_url suffix rest
    | Except.error _ => syncTomlEntries s repo_url suffix rest

/-- The palettes of the registry entries, in order. -/
def palettesOf (l : List (String × Scheme)) : List Palette :=
  l.map (fun p => p.2.data.colors)

/-- Pairwise structural distinctness of the registry palettes. -/
def distinctColors (l : List (String × Scheme)) : Prop :=
  (palettesOf l).Pairwise (fun a b => a ≠ b)

instance (l : List (String × Scheme)) : Decidable (distinctColors l) :=
  inferInstanceAs (Decidable ((palettesOf l).Pairwise (fun a b => a ≠ b)))

/-- HTTP success class (2xx), the meaning of a "success" status in HTTP and
of `reqwest::StatusCode::is_success`; the source instead compares against
the single status `200`. -/
def httpSuccess (s : Nat) : Bool := decide (200 ≤ s ∧ s < 300)

/-- Concrete palette fixture. -/
def palOne : Palette :=
  { ansi := some ["one"], brights := none, foreground := none, background := none }

/-- Concrete palette fixture. -/
def palTwo : Palette :=
  { ansi := some ["two"], brights := none, foreground := none, background := none }

/-- Concrete palette fixture. -/
def palThree : Palette :=
  { ansi := some ["three"], brights := none, foreground := none, background := none }

/-- A fresh candidate scheme with the given name and palette and empty
metadata, as a concrete test fixture. -/
def mkScheme (n : String) (p : Palette) : Scheme :=
  { name := n
    file_name := none
    data :=
      { colors := p
        metadata :=
          { name := some n, aliases := [], origin_url := none, wezterm_version := none } } }

/-- The empty registry fixture. -/
def emptySet : SchemeSet :=
  { by_name := [], version_by_color_scheme := [], version_by_name := [] }

/-- Previously published record fixture: versioned, with one alias. -/
def entryFoo : ExistingEntry :=
  { colors := palOne
    name := "Foo"
    aliases := ["A1"]
    wezterm_version := some "20230101"
    origin_url := none }

/-- Registry fixture with version maps populated from a prior dataset where
the scheme carrying `palOne` was published as `Foo` in version `20230101`. -/
def versionFix : SchemeSet :=
  { by_name := []
    version_by_color_scheme := [(serializePalette palOne, "20230101")]
    version_by_name := [("Foo", "20230101")] }

theorem scanAdd_none_of (c : Scheme) (l : List (String × Scheme))
    (h : ∀ p ∈ l, ¬ schemeMatch c p.2) : scanAdd c l = none := by
  induction l with
  | nil => rfl
  | cons hd tl ih =>
    have hhd : ¬ schemeMatch c hd.2 := h hd (List.mem_cons_self hd tl)
    have htl : scanAdd c tl = none := ih (fun p hp => h p (List.mem_cons_of_mem hd hp))
    obtain ⟨k, e⟩ := hd
    simp [scanAdd, hhd, htl]

theorem scanAdd_none_forall (c : Scheme) (l : List (String × Scheme))
    (h : scanAdd c l = none) : ∀ p ∈ l, ¬ schemeMatch c p.2 := by
  induction l with
  | nil => intro p hp; cases hp
  | cons hd tl ih =>
    obtain ⟨k, e⟩ := hd
    intro p hp
    by_cases hm : schemeMatch c e
    · simp [scanAdd, hm] at h
    · have htl : scanAdd c tl = none := by
        cases hscan : scanAdd c tl with
        | some r => simp [scanAdd, hm, hscan] at h
        | none => rfl
      rcases List.mem_cons.mp hp with rfl | hp'
      · exact hm
      · exact ih htl p hp'

theorem scanAdd_decomp (c : Scheme) (l : List (String × Scheme))
    (h : ∃ p ∈ l, schemeMatch c p.2) :
    ∃ l₁ k e l₂,
      l = l₁ ++ (k, e) :: l₂ ∧
      (∀ p ∈ l₁, ¬ schemeMatch c p.2) ∧
      schemeMatch c e ∧
      scanAdd c l = some (l₁ ++ (k, pushAlias e c.name) :: l₂) := by
  induction l with
  | nil => simp at h
  | cons hd tl ih =>
    obtain ⟨k0, e0⟩ := hd
    by_cases hm : schemeMatch c e0
    · refine ⟨[], k0, e0, tl, rfl, ?_, hm, ?_⟩
      · intro p hp; cases hp
      · simp [scanAdd, hm]
    · have h' : ∃ p ∈ tl, schemeMatch c p.2 := by
        obtain ⟨p, hp, hmp⟩ := h
        rcases List.mem_cons.mp hp with rfl | hp'
        · exact absurd hmp hm
        · exact ⟨p, hp', hmp⟩
      obtain ⟨l₁, k, e, l₂, heq, hnm, hme, hscan⟩ := ih h'
      refine ⟨(k0, e0) :: l₁, k, e, l₂, ?_, ?_, hme, ?_⟩
      · rw [heq]; rfl
      · intro p hp
        rcases List.mem_cons.mp hp with rfl | hp'
        · exact hm
        · exact hnm p hp'
      · simp [scanAdd, hm, hscan]

/-- C1: when some registry entry is record-equal to the candidate or has a
structurally equal palette, `add` appends the candidate's name to the alias
list of the first such entry (in iteration order) and returns without
inserting a new top-level entry: the key list and the version maps are
unchanged. -/
theorem add_alias_on_match (s : SchemeSet) (c : Scheme)
    (h : ∃ p ∈ s.by_name, c = p.2 ∨ c.data.colors = p.2.data.colors) :
    ∃ l₁ k e l₂,
      s.by_name = l₁ ++ (k, e) :: l₂ ∧
      (c = e ∨ c.data.colors = e.data.colors) ∧
      (s.add c).by_name = l₁ ++ (k, pushAlias e c.name) :: l₂ ∧
      (pushAlias e c.name).data.metadata.aliases = e.data.metadata.aliases ++ [c.name] ∧
      (s.add c).by_name.map Prod.fst = s.by_name.map Prod.fst ∧
      (s.add c).version_by_color_scheme = s.version_by_color_scheme ∧
      (s.add c).version_by_name = s.version_by_name := by
  have h' : ∃ p ∈ s.by_name, schemeMatch c p.2 := h
  obtain ⟨l₁, k, e, l₂, heq, hnm, hme, hscan⟩ := scanAdd_decomp c s.by_name h'
  have hadd : s.add c = { s with by_name := l₁ ++ (k, pushAlias e c.name) :: l₂ } := by
    simp [SchemeSet.add, hscan]
  refine ⟨l₁, k, e, l₂, heq, hme, ?_, rfl, ?_, ?_, ?_⟩
  · rw [hadd]
  · rw [hadd, heq]; simp
  · rw [hadd]
  · rw [hadd]

/-- Witness for C1, realizing the claim's own scenario: add `A`, then add a
`B` with an identical palette but different name; `B` lands in `A`'s alias
list, `by_name` gains no key `B`, and the key list is unchanged. -/
theorem add_alias_on_match_witness :
    ((emptySet.add (mkScheme "A" palOne)).add (mkScheme "B" palOne)).by_name.map Prod.fst =
      (emptySet.add (mkScheme "A" palOne)).by_name.map Prod.fst ∧
    alookup "B" ((emptySet.add (mkScheme "A" palOne)).add (mkScheme "B" palOne)).by_name = none ∧
    (∃ a, alookup "A" ((emptySet.add (mkScheme "A" palOne)).add (mkScheme "B" palOne)).by_name = some a ∧
      "B" ∈ a.data.metadata.aliases) := by
  have happ := add_alias_on_match (emptySet.add (mkScheme "A" palOne)) (mkScheme "B" palOne) (by decide)
  obtain ⟨l₁, k, e, l₂, -, -, -, -, hkeys, -, -⟩ := happ
  exact ⟨hkeys, by decide, by decide⟩

theorem stampVersion_name (c : Scheme) (o : Option String) : (stampVersion c o).name = c.name := by
  cases o <;> rfl

theorem stampVersion_colors (c : Scheme) (o : Option String) :
    (stampVersion c o).data.colors = c.data.colors := by
  cases o <;> rfl

theorem stampVersion_file_name (c : Scheme) (o : Option String) :
    (stampVersion c o).file_name = c.file_name := by
  cases o <;> rfl

theorem stampVersion_aliases (c : Scheme) (o : Option String) :
    (stampVersion c o).data.metadata.aliases = c.data.metadata.aliases := by
  cases o <;> rfl

theorem stampVersion_version (c : Scheme) (o : Option String) :
    (stampVersion c o).data.metadata.wezterm_version =
      (match o with
       | some v => some v
       | none => c.data.metadata.wezterm_version) := by
  cases o <;> rfl

theorem alookup_removeName (n : String) (l : List (String × Scheme)) :
    alookup n (removeName n l) = none := by
  induction l with
  | nil => rfl
  | cons hd tl ih =>
    obtain ⟨k, e⟩ := hd
    by_cases hk : k = n
    · simp [removeName, hk, ih]
    · simp [removeName, alookup, hk, ih]

theorem alookup_append_of_none {α : Type} (k : String) (l₁ l₂ : List (String × α))
    (h : alookup k l₁ = none) : alookup k (l₁ ++ l₂) = alookup k l₂ := by
  induction l₁ with
  | nil => rfl
  | cons hd tl ih =>
    obtain ⟨k', v⟩ := hd
    by_cases hk : k' = k
    · simp [alookup, hk] at h
    · simp only [List.cons_append, alookup, if_neg hk] at h ⊢
      exact ih h

/-- C2: a candidate that escapes the exact-match scan but collides on name
supersedes the old entry: the old entry is removed, the candidate (with its
version resolved) is inserted under its name, and the old entry's alias
list is carried onto it (replacing the candidate's own aliases). -/
theorem add_name_collision_carries_aliases (s : SchemeSet) (c : Scheme) (old : Scheme)
    (hscan : ∀ p ∈ s.by_name, ¬ (c = p.2 ∨ c.data.colors = p.2.data.colors))
    (hold : alookup c.name s.by_name = some old) :
    ∃ c2,
      (s.add c).by_name = removeName c.name s.by_name ++ [(c.name, c2)] ∧
      alookup c.name (s.add c).by_name = some c2 ∧
      c2.data.metadata.aliases = old.data.metadata.aliases ∧
      c2.name = c.name ∧
      c2.data.colors = c.data.colors ∧
      c2.file_name = c.file_name := by
  have hnone : scanAdd c s.by_name = none := scanAdd_none_of c s.by_name hscan
  have hc1name : (stampVersion c (resolveVersionLookup s c)).name = c.name :=
    stampVersion_name c _
  have hadd : s.add c =
      { s with by_name := removeName c.name s.by_name ++
          [(c.name, { stampVersion c (resolveVersionLookup s c) with
              data.metadata.aliases := old.data.metadata.aliases })] } := by
    simp [SchemeSet.add, hnone, hc1name, hold]
  refine ⟨{ stampVersion c (resolveVersionLookup s c) with
      data.metadata.aliases := old.data.metadata.aliases }, ?_, ?_, rfl, ?_, ?_, ?_⟩
  · rw [hadd]
  · rw [hadd]
    show alookup c.name (removeName c.name s.by_name ++ _) = _
    rw [alookup_append_of_none c.name _ _ (alookup_removeName c.name s.by_name)]
    simp [alookup]
  · exact hc1name
  · exact stampVersion_colors c _
  · exact stampVersion_file_name c _

/-- Witness for C2, realizing the claim's own scenario: `Foo` exists with
aliases `F1`, `F2`; a non-palette-matching candidate named `Foo` is added;
the resulting `Foo` entry carries aliases `F1`, `F2`. -/
theorem add_name_collision_witness :
    (∃ c2,
      ((emptySet.add { mkScheme "Foo" palOne with data.metadata.aliases := ["F1", "F2"] }).add
          (mkScheme "Foo" palTwo)).by_name =
        removeName "Foo"
          (emptySet.add { mkScheme "Foo" palOne with data.metadata.aliases := ["F1", "F2"] }).by_name ++
          [("Foo", c2)] ∧
      alookup "Foo"
        ((emptySet.add { mkScheme "Foo" palOne with data.metadata.aliases := ["F1", "F2"] }).add
          (mkScheme "Foo" palTwo)).by_name = some c2 ∧
      c2.data.metadata.aliases =
        (fun old : Scheme => old.data.metadata.aliases)
          { mkScheme "Foo" palOne with data.metadata.aliases := ["F1", "F2"] } ∧
      c2.name = (mkScheme "Foo" palTwo).name ∧
      c2.data.colors = (mkScheme "Foo" palTwo).data.colors ∧
      c2.file_name = (mkScheme "Foo" palTwo).file_name) ∧
    (∃ c2, alookup "Foo"
        ((emptySet.add { mkScheme "Foo" palOne with data.metadata.aliases := ["F1", "F2"] }).add
          (mkScheme "Foo" palTwo)).by_name = some c2 ∧
      c2.data.metadata.aliases = ["F1", "F2"]) := by
  constructor
  · exact add_name_collision_carries_aliases
      (emptySet.add { mkScheme "Foo" palOne with data.metadata.aliases := ["F1", "F2"] })
      (mkScheme "Foo" palTwo)
      { mkScheme "Foo" palOne with data.metadata.aliases := ["F1", "F2"] }
      (by decide) (by decide)
  · decide

theorem resolveVersionLookup_chain (s : SchemeSet) (c : Scheme) :
    (match resolveVersionLookup s c with
     | some v => some v
     | none => c.data.metadata.wezterm_version) =
    (match alookup (serializePalette c.data.colors) s.version_by_color_scheme with
     | some v => some v
     | none =>
       match alookup c.name s.version_by_name with
       | some v => some v
       | none =>
         match firstAliasVersion s.version_by_name c.data.metadata.aliases with
         | some v => some v
         | none => c.data.metadata.wezterm_version) := by
  unfold resolveVersionLookup
  cases alookup (serializePalette c.data.colors) s.version_by_color_scheme with
  | some v => rfl
  | none =>
    cases alookup c.name s.version_by_name with
    | some v => rfl
    | none =>
      cases firstAliasVersion s.version_by_name c.data.metadata.aliases with
      | some v => rfl
      | none => rfl

/-- C3: for a candidate not matched by the exact-match scan, the entry
stored under the candidate's name carries the version resolved by trying,
in order, the serialized palette against `version_by_color_scheme`, the
candidate's name against `version_by_name`, then each declared alias in
listed order against `version_by_name`; when every lookup misses, the
candidate's version field is left unchanged. -/
theorem add_resolves_version_in_order (s : SchemeSet) (c : Scheme)
    (hscan : ∀ p ∈ s.by_name, ¬ (c = p.2 ∨ c.data.colors = p.2.data.colors)) :
    ∃ c2, alookup c.name (s.add c).by_name = some c2 ∧
      c2.data.metadata.wezterm_version =
        (match alookup (serializePalette c.data.colors) s.version_by_color_scheme with
         | some v => some v
         | none =>
           match alookup c.name s.version_by_name with
           | some v => some v
           | none =>
             match firstAliasVersion s.version_by_name c.data.metadata.aliases with
             | some v => some v
             | none => c.data.metadata.wezterm_version) := by
  have hscan' : ∀ p ∈ s.by_name, ¬ schemeMatch c p.2 := hscan
  have hnone : scanAdd c s.by_name = none := scanAdd_none_of c s.by_name hscan'
  have hname : (stampVersion c (resolveVersionLookup s c)).name = c.name := stampVersion_name c _
  cases hold : alookup c.name s.by_name with
  | some old =>
    have hadd : s.add c = { s with by_name := removeName c.name s.by_name ++
        [(c.name, { stampVersion c (resolveVersionLookup s c) with
            data.metadata.aliases := old.data.metadata.aliases })] } := by
      simp [SchemeSet.add, hnone, hname, hold]
    refine ⟨{ stampVersion c (resolveVersionLookup s c) with
        data.metadata.aliases := old.data.metadata.aliases }, ?_, ?_⟩
    · rw [hadd]
      show alookup c.name (removeName c.name s.by_name ++ _) = _
      rw [alookup_append_of_none c.name _ _ (alookup_removeName c.name s.by_name)]
      simp [alookup]
    · show (stampVersion c (resolveVersionLookup s c)).data.metadata.wezterm_version = _
      rw [stampVersion_version]
      exact resolveVersionLookup_chain s c
  | none =>
    have hadd : s.add c = { s with by_name := removeName c.name s.by_name ++
        [(c.name, stampVersion c (resolveVersionLookup s c))] } := by
      simp [SchemeSet.add, hnone, hname, hold]
    refine ⟨stampVersion c (resolveVersionLookup s c), ?_, ?_⟩
    · rw [hadd]
      show alookup c.name (removeName c.name s.by_name ++ _) = _
      rw [alookup_append_of_none c.name _ _ (alookup_removeName c.name s.by_name)]
      simp [alookup]
    · rw [stampVersion_version]
      exact resolveVersionLookup_chain s c

/-- Witness for C3, realizing the spec's example: a prior dataset gave
`Foo` (palette `palOne`) version `20230101`; a new candidate named `Bar`
with that same palette, added to a registry holding only the version maps,
is stored carrying version `20230101`, not unset. -/
theorem add_resolves_version_witness :
    ∃ c2, alookup "Bar" (versionFix.add (mkScheme "Bar" palOne)).by_name = some c2 ∧
      c2.data.metadata.wezterm_version = some "20230101" := by
  have h := add_resolves_version_in_order versionFix (mkScheme "Bar" palOne) (by decide)
  obtain ⟨c2, hlook, hv⟩ := h
  refine ⟨c2, hlook, ?_⟩
  rw [hv]
  decide

theorem scanAdd_palettes (c : Scheme) (l : List (String × Scheme)) :
    ∀ l', scanAdd c l = some l' → palettesOf l' = palettesOf l := by
  induction l with
  | nil => intro l' h; cases h
  | cons hd tl ih =>
    obtain ⟨k, e⟩ := hd
    intro l' h
    by_cases hm : schemeMatch c e
    · simp only [scanAdd, if_pos hm] at h
      cases h
      simp [palettesOf, pushAlias]
    · simp only [scanAdd, if_neg hm] at h
      cases hscan : scanAdd c tl with
      | some r =>
        rw [hscan] at h
        cases h
        have hr := ih r hscan
        simp only [palettesOf, List.map_cons] at hr ⊢
        rw [hr]
      | none => rw [hscan] at h; cases h

theorem removeName_sublist (n : String) (l : List (String × Scheme)) :
    List.Sublist (removeName n l) l := by
  induction l with
  | nil => exact List.Sublist.refl _
  | cons hd tl ih =>
    by_cases hk : hd.1 = n
    · simp only [removeName, if_pos hk]
      exact ih.cons hd
    · simp only [removeName, if_neg hk]
      exact ih.cons₂ hd

/-- C9: `add` preserves pairwise structural distinctness of the registry
palettes: a palette-duplicate candidate only extends an alias list, and a
name-collision replacement removes the old entry before inserting a
candidate whose palette differs from every remaining entry. -/
theorem add_preserves_palette_distinct (s : SchemeSet) (c : Scheme)
    (h : distinctColors s.by_name) : distinctColors (s.add c).by_name := by
  cases hscan : scanAdd c s.by_name with
  | some l' =>
    have hadd : s.add c = { s with by_name := l' } := by simp [SchemeSet.add, hscan]
    rw [hadd]
    unfold distinctColors at h ⊢
    rw [scanAdd_palettes c s.by_name l' hscan]
    exact h
  | none =>
    have hmatch : ∀ p ∈ s.by_name, ¬ schemeMatch c p.2 := scanAdd_none_forall c s.by_name hscan
    have hname : (stampVersion c (resolveVersionLookup s c)).name = c.name := stampVersion_name c _
    unfold distinctColors palettesOf at h
    have key : ∀ c2 : Scheme, c2.data.colors = c.data.colors →
        distinctColors (removeName c.name s.by_name ++ [(c.name, c2)]) := by
      intro c2 hc2
      unfold distinctColors palettesOf
      rw [List.map_append, List.pairwise_append]
      refine ⟨?_, ?_, ?_⟩
      · exact h.sublist ((removeName_sublist c.name s.by_name).map _)
      · simp
      · intro a ha b hb
        simp only [List.map_cons, List.map_nil, List.mem_singleton] at hb
        subst hb
        rw [List.mem_map] at ha
        obtain ⟨p, hp, rfl⟩ := ha
        have hpmem : p ∈ s.by_name := (removeName_sublist c.name s.by_name).subset hp
        have hne : ¬ schemeMatch c p.2 := hmatch p hpmem
        rw [hc2]
        intro heq
        exact hne (Or.inr heq.symm)
    cases hold : alookup c.name s.by_name with
    | some old =>
      have hadd : s.add c = { s with by_name := removeName c.name s.by_name ++
          [(c.name, { stampVersion c (resolveVersionLookup s c) with
              data.metadata.aliases := old.data.metadata.aliases })] } := by
        simp [SchemeSet.add, hscan, hname, hold]
      rw [hadd]
      exact key _ (stampVersion_colors c _)
    | none =>
      have hadd : s.add c = { s with by_name := removeName c.name s.by_name ++
          [(c.name, stampVersion c (resolveVersionLookup s c))] } := by
        simp [SchemeSet.add, hscan, hname, hold]
      rw [hadd]
      exact key _ (stampVersion_colors c _)

/-- Witness for C9: a registry with two pairwise-distinct palettes stays
pairwise distinct after adding a third candidate that collides on name but
not on palette. -/
theorem add_preserves_palette_distinct_witness :
    distinctColors (((emptySet.add (mkScheme "A" palOne)).add (mkScheme "B" palTwo)).add
      (mkScheme "B" palThree)).by_name :=
  add_preserves_palette_distinct ((emptySet.add (mkScheme "A" palOne)).add (mkScheme "B" palTwo))
    (mkScheme "B" palThree) (by decide)

theorem alookup_ainsert {α : Type} (k : String) (v : α) (l : List (String × α)) :
    alookup k (ainsert k v l) = some v := by
  induction l with
  | nil => simp [ainsert, alookup]
  | cons hd tl ih =>
    obtain ⟨k', v'⟩ := hd
    by_cases hk : k' = k
    · simp [ainsert, hk, alookup]
    · simp [ainsert, alookup, hk, ih]

theorem alookup_ainsert_ne {α : Type} (k k' : String) (v : α) (l : List (String × α))
    (h : k' ≠ k) : alookup k (ainsert k' v l) = alookup k l := by
  induction l with
  | nil => simp [ainsert, alookup, h]
  | cons hd tl ih =>
    obtain ⟨k0, v0⟩ := hd
    by_cases hins : k0 = k'
    · subst hins
      simp [ainsert, alookup, h]
    · simp only [ainsert, if_neg hins]
      by_cases hk0 : k0 = k
      · simp [alookup, hk0]
      · simp [alookup, hk0, ih]

theorem alookup_ainsert_isSome {α : Type} (k k' : String) (v : α) (l : List (String × α)) :
    (alookup k (ainsert k' v l)).isSome ↔ (k = k' ∨ (alookup k l).isSome) := by
  by_cases h : k' = k
  · subst h
    rw [alookup_ainsert]
    simp
  · rw [alookup_ainsert_ne _ _ _ _ h]
    have h' : ¬ k = k' := fun hh => h hh.symm
    simp [h']

theorem loadMapsAux_vbn (entries : List ExistingEntry) :
    ∀ vbc vbn (k : String), (alookup k (loadMapsAux vbc vbn entries).2).isSome ↔
      ((alookup k vbn).isSome ∨
        k ∈ (entries.filter (fun e => e.wezterm_version.isSome)).map (fun e => e.name)) := by
  induction entries with
  | nil =>
    intro vbc vbn k
    simp [loadMapsAux]
  | cons e rest ih =>
    intro vbc vbn k
    cases hv : e.wezterm_version with
    | some v =>
      simp only [loadMapsAux, hv]
      rw [ih]
      rw [alookup_ainsert_isSome]
      simp only [List.filter_cons, hv, Option.isSome_some, if_pos, List.map_cons, List.mem_cons]
      tauto
    | none =>
      simp only [loadMapsAux, hv]
      rw [ih]
      simp [List.filter_cons, hv]

theorem loadMapsAux_vbc (entries : List ExistingEntry) :
    ∀ vbc vbn (k : String), (alookup k (loadMapsAux vbc vbn entries).1).isSome ↔
      ((alookup k vbc).isSome ∨
        k ∈ (entries.filter (fun e => e.wezterm_version.isSome)).map
          (fun e => serializePalette e.colors)) := by
  induction entries with
  | nil =>
    intro vbc vbn k
    simp [loadMapsAux]
  | cons e rest ih =>
    intro vbc vbn k
    cases hv : e.wezterm_version with
    | some v =>
      simp only [loadMapsAux, hv]
      rw [ih]
      rw [alookup_ainsert_isSome]
      simp only [List.filter_cons, hv, Option.isSome_some, if_pos, List.map_cons, List.mem_cons]
      tauto
    | none =>
      simp only [loadMapsAux, hv]
      rw [ih]
      simp [List.filter_cons, hv]

/-- C4 counterexample: a previously published record carrying a
`wezterm_version` and the alias `A1` is loaded, yet `A1` is not a key of
`version_by_name` — the loop only inserts the record's own name there (the
aliases go into a `names_by_color_scheme` map that the function then drops),
so the claim that every alias of every versioned record is indexed fails on
this input. -/
theorem load_existing_alias_not_indexed :
    entryFoo.wezterm_version = some "20230101" ∧
    "A1" ∈ entryFoo.aliases ∧
    alookup "A1" (load_existing [entryFoo]).version_by_name = none ∧
    (load_existing [entryFoo]).version_by_name = [("Foo", "20230101")] :=
  ⟨rfl, by decide, by decide, by decide⟩

/-- C4 amended: `load_existing` indexes, for each record carrying a
`wezterm_version`, its serialized palette into `version_by_color_scheme`
and its name — but not its aliases — into `version_by_name`: the keys of
`version_by_name` are exactly the names of the versioned records, and the
keys of `version_by_color_scheme` are exactly their serialized palettes. -/
theorem load_existing_version_index (entries : List ExistingEntry) :
    (∀ k, (alookup k (load_existing entries).version_by_name).isSome ↔
      k ∈ (entries.filter (fun e => e.wezterm_version.isSome)).map (fun e => e.name)) ∧
    (∀ k, (alookup k (load_existing entries).version_by_color_scheme).isSome ↔
      k ∈ (entries.filter (fun e => e.wezterm_version.isSome)).map
        (fun e => serializePalette e.colors)) := by
  constructor
  · intro k
    show (alookup k (loadMapsAux [] [] entries).2).isSome ↔ _
    rw [loadMapsAux_vbn]
    simp [alookup]
  · intro k
    show (alookup k (loadMapsAux [] [] entries).1).isSome ↔ _
    rw [loadMapsAux_vbc]
    simp [alookup]

theorem splitFirstEq_no_eq (l : List Char) (h : '=' ∉ l) : splitFirstEq l = (l, none) := by
  induction l with
  | nil => rfl
  | cons c rest ih =>
    have hc : ¬ c = '=' := fun hh => h (hh ▸ List.mem_cons_self c rest)
    have hr : '=' ∉ rest := fun hm => h (List.mem_cons_of_mem c hm)
    simp [splitFirstEq, hc, ih hr]

theorem splitFirstEq_append (pre rest : List Char) (h : '=' ∉ pre) :
    splitFirstEq (pre ++ '=' :: rest) = (pre, some rest) := by
  induction pre with
  | nil => simp [splitFirstEq]
  | cons c tl ih =>
    have hc : ¬ c = '=' := fun hh => h (hh ▸ List.mem_cons_self c tl)
    have ht : '=' ∉ tl := fun hm => h (List.mem_cons_of_mem c hm)
    simp [splitFirstEq, hc, ih ht]

theorem parse_ttl_maxage (s : String) (n : Nat) (h : parseU64 s = some n) :
    parse_ttl (some ("max-age=" ++ s)) = n := by
  have hdata : ("max-age=" ++ s).data = "max-age".data ++ '=' :: s.data := by
    rw [String.data_append]
    rfl
  have h' : parseU64L s.data = some n := h
  simp only [parse_ttl]
  rw [hdata, splitFirstEq_append _ _ (by decide)]
  simp [h']

theorem parse_ttl_no_eq (v : String) (h : '=' ∉ v.data) : parse_ttl (some v) = 86400 := by
  simp only [parse_ttl]
  rw [splitFirstEq_no_eq v.data h]

theorem cacheGetLive_write_live (cache : CacheState) (url body : String) (expiry t : Nat)
    (h : t < expiry) : cacheGetLive (cacheWrite cache url body expiry) url t = some body := by
  unfold cacheGetLive cacheWrite
  rw [alookup_ainsert]
  simp [h]

theorem cacheGetLive_write_expired (cache : CacheState) (url body : String) (expiry t : Nat)
    (h : expiry ≤ t) : cacheGetLive (cacheWrite cache url body expiry) url t = none := by
  unfold cacheGetLive cacheWrite
  rw [alookup_ainsert]
  simp [Nat.not_lt.mpr h]

theorem fetch_url_ok (cache : CacheState) (url : String) (now : Nat) (resp : HttpResponse)
    (hmiss : cacheGetLive cache url now = none) (hok : resp.status = 200) :
    fetch_url cache url now resp =
      (Except.ok resp.body, cacheWrite cache url resp.body (now + parse_ttl resp.cache_control)) := by
  unfold fetch_url
  rw [hmiss]
  simp [hok]

theorem fetch_url_err (cache : CacheState) (url : String) (now : Nat) (resp : HttpResponse)
    (hmiss : cacheGetLive cache url now = none) (hbad : resp.status ≠ 200) :
    fetch_url cache url now resp = (Except.error resp.body, cache) := by
  unfold fetch_url
  rw [hmiss]
  simp [hbad]

/-- C5 counterexample: the response header `public, max-age=60` contains a
`max-age=60` token with a numeric value, yet the fetch keeps the default
86400-second TTL — the code only honors `max-age` when the whole header
value, split at its first `=`, starts with exactly `max-age`. -/
theorem maxage_token_midheader_ignored :
    specMaxAgeToken "public, max-age=60" = some 60 ∧
    parse_ttl (some "public, max-age=60") = 86400 ∧
    fetch_url [] "u" 0 ⟨200, some "public, max-age=60", "B"⟩ =
      (Except.ok "B", [("u", ("B", 86400))]) :=
  ⟨rfl, rfl, rfl⟩

/-- C5 amended: on a cache miss with a 200 response, `fetch_url` writes the
body with expiry `now + ttl`, where the ttl is the numeric value after the
first `=` of the cache-control header when everything before that `=` is
exactly `max-age` (in particular for a header of the exact form
`max-age=<seconds>`), and 86400 seconds otherwise (shown here for a missing
header and for a header containing no `=` at all); a refetch before the
expiry is served from cache and one at or after it misses. -/
theorem fetch_ttl_resolution (cache : CacheState) (url : String) (now : Nat) (resp : HttpResponse)
    (hmiss : cacheGetLive cache url now = none)
    (hok : resp.status = 200) :
    fetch_url cache url now resp =
      (Except.ok resp.body, cacheWrite cache url resp.body (now + parse_ttl resp.cache_control)) ∧
    (∀ s n, resp.cache_control = some ("max-age=" ++ s) → parseU64 s = some n →
      parse_ttl resp.cache_control = n) ∧
    (∀ v, resp.cache_control = some v → '=' ∉ v.data → parse_ttl resp.cache_control = 86400) ∧
    (resp.cache_control = none → parse_ttl resp.cache_control = 86400) ∧
    (∀ t, t < now + parse_ttl resp.cache_control →
      cacheGetLive (cacheWrite cache url resp.body (now + parse_ttl resp.cache_control)) url t =
        some resp.body) ∧
    (∀ t, now + parse_ttl resp.cache_control ≤ t →
      cacheGetLive (cacheWrite cache url resp.body (now + parse_ttl resp.cache_control)) url t =
        none) := by
  refine ⟨fetch_url_ok cache url now resp hmiss hok, ?_, ?_, ?_, ?_, ?_⟩
  · intro s n hcc hn
    rw [hcc]
    exact parse_ttl_maxage s n hn
  · intro v hcc hne
    rw [hcc]
    exact parse_ttl_no_eq v hne
  · intro hcc
    rw [hcc]
    rfl
  · intro t ht
    exact cacheGetLive_write_live cache url resp.body _ t ht
  · intro t ht
    exact cacheGetLive_write_expired cache url resp.body _ t ht

/-- Witness for C5 (amended): a 200 response with header `max-age=60`
resolves a 60-second TTL; a refetch at time 59 hits the cache, one at 60
misses. -/
theorem fetch_ttl_resolution_witness :
    fetch_url [] "https://example.com/a" 0 ⟨200, some "max-age=60", "BODY"⟩ =
      (Except.ok "BODY", [("https://example.com/a", ("BODY", 60))]) ∧
    parse_ttl (some "max-age=60") = 60 ∧
    cacheGetLive [("https://example.com/a", ("BODY", 60))] "https://example.com/a" 59 =
      some "BODY" ∧
    cacheGetLive [("https://example.com/a", ("BODY", 60))] "https://example.com/a" 60 = none := by
  have h := fetch_ttl_resolution [] "https://example.com/a" 0 ⟨200, some "max-age=60", "BODY"⟩
    rfl rfl
  obtain ⟨heq, hmax, -, -, hlive, hexp⟩ := h
  have httl : parse_ttl (some "max-age=60") = 60 := hmax "60" 60 rfl rfl
  refine ⟨?_, httl, ?_, ?_⟩
  · rw [heq]
    rfl
  · exact hlive 59 (by decide)
  · exact hexp 60 (by decide)

/-- C6 counterexample: status 201 lies in the HTTP success class, yet
`fetch_url` fails with the body as error detail and caches nothing — the
code accepts only status 200, not every success status. -/
theorem fetch_success_201_not_cached :
    httpSuccess 201 = true ∧
    fetch_url [] "u" 0 ⟨201, none, "created"⟩ = (Except.error "created", []) :=
  ⟨rfl, rfl⟩

/-- C6 amended: on a cache miss, any response status other than 200 (OK) —
including other 2xx success statuses — makes `fetch_url` return an error
whose detail is the response body, leaving the cache unchanged; a 200
response writes the body to the cache with the resolved TTL and returns
it. -/
theorem fetch_status_behavior (cache : CacheState) (url : String) (now : Nat)
    (resp : HttpResponse) (hmiss : cacheGetLive cache url now = none) :
    (resp.status ≠ 200 → fetch_url cache url now resp = (Except.error resp.body, cache)) ∧
    (resp.status = 200 → fetch_url cache url now resp =
      (Except.ok resp.body, cacheWrite cache url resp.body (now + parse_ttl resp.cache_control))) :=
  ⟨fun h => fetch_url_err cache url now resp hmiss h,
   fun h => fetch_url_ok cache url now resp hmiss h⟩

/-- Witness for C6 (amended): a 404 response errors with its body and leaves
the cache empty; a 200 response is cached with the default TTL and
returned. -/
theorem fetch_status_behavior_witness :
    fetch_url [] "u" 0 ⟨404, none, "nope"⟩ = (Except.error "nope", []) ∧
    fetch_url [] "u" 0 ⟨200, none, "yes"⟩ = (Except.ok "yes", [("u", ("yes", 86400))]) := by
  have h1 := fetch_status_behavior [] "u" 0 ⟨404, none, "nope"⟩ rfl
  have h2 := fetch_status_behavior [] "u" 0 ⟨200, none, "yes"⟩ rfl
  refine ⟨h1.1 (by decide), ?_⟩
  rw [h2.2 rfl]
  rfl

/-- C8: the `.toml` entry loop of `sync_toml` isolates parse failures: it
returns success and merges, in order, exactly the successfully parsed
candidates; a malformed document is skipped without aborting the sync. -/
theorem syncToml_skips_parse_failures (s : SchemeSet) (repo_url suffix : String)
    (entries : List TomlEntry) :
    syncTomlEntries s repo_url suffix entries =
      Except.ok (s.accumulate (entries.filterMap (fun e =>
        match e.parsed with
        | Except.ok f => some (prepareScheme repo_url suffix e.stem f)
        | Except.error _ => none))) := by
  induction entries generalizing s with
  | nil => rfl
  | cons e rest ih =>
    cases hp : e.parsed with
    | ok f =>
      simp only [syncTomlEntries, hp]
      rw [ih]
      simp [SchemeSet.accumulate, List.filterMap_cons, hp]
    | error err =>
      simp only [syncTomlEntries, hp]
      rw [ih]
      simp [List.filterMap_cons, hp]

theorem not_upper_of_digit (c : Char) (h : '0' ≤ c ∧ c ≤ '9') : ¬ ('A' ≤ c ∧ c ≤ 'Z') :=
  fun hu => absurd (le_trans hu.1 h.2) (by decide)

theorem not_upper_of_lower (c : Char) (h : 'a' ≤ c ∧ c ≤ 'z') : ¬ ('A' ≤ c ∧ c ≤ 'Z') :=
  fun hu => absurd (le_trans h.1 hu.2) (by decide)

theorem makePrefixChar_eq_find (l : List Char) :
    makePrefixChar l = (l.find? isAsciiAlnum).map asciiToLower := by
  induction l with
  | nil => rfl
  | cons c rest ih =>
    by_cases h1 : ('0' ≤ c ∧ c ≤ '9') ∨ ('a' ≤ c ∧ c ≤ 'z')
    · have halnum : isAsciiAlnum c = true := by
        unfold isAsciiAlnum
        rcases h1 with h | h
        · simp [h]
        · simp [h]
      have hself : asciiToLower c = c := by
        rcases h1 with h | h
        · simp [asciiToLower, not_upper_of_digit c h]
        · simp [asciiToLower, not_upper_of_lower c h]
      simp [makePrefixChar, h1, List.find?, halnum, hself]
    · by_cases h2 : 'A' ≤ c ∧ c ≤ 'Z'
      · have halnum : isAsciiAlnum c = true := by
          unfold isAsciiAlnum
          simp [h2]
        simp [makePrefixChar, h1, h2, List.find?, halnum]
      · have halnum : isAsciiAlnum c = false := by
          unfold isAsciiAlnum
          simp only [decide_eq_false_iff_not]
          tauto
        simp [makePrefixChar, h1, h2, List.find?, halnum, ih]

/-- C10: `make_prefix` is exactly as partial as claimed: for every name its
key is the first ASCII alphanumeric character (ranges `0`-`9`, `a`-`z`,
`A`-`Z`) ascii-lowercased, paired with the ascii-lowercased full name, and
it is `none` — the panic `no good prefix` — precisely when the name has no
such character, in which case the finalization `bakeAllOk` aborts. -/
theorem makePrefix_partial_characterization :
    (∀ name : String, makePrefixKey name =
      (name.data.find? isAsciiAlnum).map (fun c => (asciiToLower c, lowerString name))) ∧
    (∀ l : List Scheme, ∀ s ∈ l, makePrefixKey s.name = none → bakeAllOk l = none) := by
  constructor
  · intro name
    unfold makePrefixKey
    rw [makePrefixChar_eq_find]
    cases name.data.find? isAsciiAlnum <;> rfl
  · intro l s hs hnone
    apply if_neg
    intro hall
    rw [List.all_eq_true] at hall
    have hmem := hall _ (List.mem_map_of_mem cleanupAliases hs)
    rw [show (cleanupAliases s).name = s.name from rfl, hnone] at hmem
    simp at hmem

/-- Witness for C10: an all-punctuation name has no prefix key and aborts
finalization; a name with leading punctuation gets its first alphanumeric
character, lowercased, with the lowercased full name. -/
theorem makePrefix_partial_witness :
    makePrefixKey "___" = none ∧
    bakeAllOk [mkScheme "___" palOne] = none ∧
    makePrefixKey "_Special" = some ('s', "_special") ∧
    makePrefixKey "1337" = some ('1', "1337") := by
  refine ⟨rfl, ?_, rfl, rfl⟩
  exact makePrefix_partial_characterization.2 [mkScheme "___" palOne] (mkScheme "___" palOne)
    (by decide) rfl

theorem charsLeB_total (xs ys : List Char) : charsLeB xs ys = true ∨ charsLeB ys xs = true := by
  induction xs generalizing ys with
  | nil => left; rfl
  | cons a xs ih =>
    cases ys with
    | nil => right; rfl
    | cons b ys =>
      rcases lt_trichotomy a b with h | h | h
      · left; simp [charsLeB, h]
      · subst h
        rcases ih ys with h' | h'
        · left; simp [charsLeB, lt_irrefl, h']
        · right; simp [charsLeB, lt_irrefl, h']
      · right; simp [charsLeB, h]

theorem charsLeB_trans (xs ys zs : List Char) (h1 : charsLeB xs ys = true)
    (h2 : charsLeB ys zs = true) : charsLeB xs zs = true := by
  induction xs generalizing ys zs with
  | nil => rfl
  | cons a xs ih =>
    cases ys with
    | nil => simp [charsLeB] at h1
    | cons b ys =>
      cases zs with
      | nil => simp [charsLeB] at h2
      | cons d zs =>
        rcases lt_trichotomy a b with hab | hab | hab
        · rcases lt_trichotomy b d with hbd | hbd | hbd
          · simp [charsLeB, lt_trans hab hbd]
          · subst hbd; simp [charsLeB, hab]
          · have hnb : ¬ b < d := asymm hbd
            simp [charsLeB, hnb, hbd] at h2
        · subst hab
          simp only [charsLeB, lt_irrefl, if_neg (lt_irrefl a)] at h1
          rcases lt_trichotomy a d with had | had | had
          · simp [charsLeB, had]
          · subst had
            simp only [charsLeB, lt_irrefl, if_neg (lt_irrefl a)] at h2 ⊢
            exact ih ys zs h1 h2
          · have hna : ¬ a < d := asymm had
            simp [charsLeB, hna, had] at h2
        · have hna : ¬ a < b := asymm hab
          simp [charsLeB, hna, hab] at h1

theorem keyLeB_total (x y : Char × String) : keyLeB x y = true ∨ keyLeB y x = true := by
  unfold keyLeB
  rcases lt_trichotomy x.1 y.1 with h | h | h
  · left; simp [h]
  · rcases charsLeB_total x.2.data y.2.data with h' | h'
    · left; simp [h, lt_irrefl, h']
    · right; simp [h, lt_irrefl, h']
  · right; simp [h]

theorem keyLeB_trans (x y z : Char × String) (h1 : keyLeB x y = true)
    (h2 : keyLeB y z = true) : keyLeB x z = true := by
  unfold keyLeB at h1 h2 ⊢
  rcases lt_trichotomy x.1 y.1 with hab | hab | hab
  · rcases lt_trichotomy y.1 z.1 with hbd | hbd | hbd
    · simp [lt_trans hab hbd]
    · have hxz : x.1 < z.1 := by rw [← hbd]; exact hab
      simp [hxz]
    · have hny : ¬ y.1 < z.1 := asymm hbd
      simp [hny, hbd] at h2
  · rcases lt_trichotomy y.1 z.1 with hbd | hbd | hbd
    · have hxz : x.1 < z.1 := by rw [hab]; exact hbd
      simp [hxz]
    · have hxz : x.1 = z.1 := hab.trans hbd
      simp only [hab, lt_irrefl, if_neg (lt_irrefl y.1)] at h1
      simp only [hbd, lt_irrefl, if_neg (lt_irrefl z.1)] at h2
      simp only [hxz, lt_irrefl, if_neg (lt_irrefl z.1)]
      exact charsLeB_trans _ _ _ h1 h2
    · have hny : ¬ y.1 < z.1 := asymm hbd
      simp [hny, hbd] at h2
  · have hnx : ¬ x.1 < y.1 := asymm hab
    simp [hnx, hab] at h1

theorem schemeLeB_total (a b : Scheme) : schemeLeB a b = true ∨ schemeLeB b a = true := by
  unfold schemeLeB
  cases ha : makePrefixKey a.name with
  | none => left; rfl
  | some x =>
    cases hb : makePrefixKey b.name with
    | none => right; rfl
    | some y => exact keyLeB_total x y

theorem schemeLeB_trans (a b c : Scheme) (h1 : schemeLeB a b = true)
    (h2 : schemeLeB b c = true) : schemeLeB a c = true := by
  unfold schemeLeB at h1 h2 ⊢
  cases ha : makePrefixKey a.name with
  | none => rfl
  | some x =>
    cases hb : makePrefixKey b.name with
    | none =>
      rw [ha, hb] at h1
      cases h1
    | some y =>
      cases hc : makePrefixKey c.name with
      | none =>
        rw [hb, hc] at h2
        cases h2
      | some z =>
        rw [ha, hb] at h1
        rw [hb, hc] at h2
        exact keyLeB_trans x y z h1 h2

instance : IsTotal Scheme schemeSortRel :=
  ⟨fun a b => schemeLeB_total a b⟩

instance : IsTrans Scheme schemeSortRel :=
  ⟨fun a b c => schemeLeB_trans a b c⟩

/-- C7: under the panic-free condition that every name has an ASCII
alphanumeric character, finalization succeeds and yields a permutation of
the alias-cleaned entries that is pairwise ordered by the `make_prefix`
key: the pair (first alphanumeric character of the name, ascii-lowercased;
full name, ascii-lowercased), compared lexicographically. -/
theorem bake_output_sorted (l : List Scheme)
    (h : ∀ s ∈ l, (makePrefixKey s.name).isSome) :
    bakeAllOk l = some (bakeAll l) ∧
    List.Perm (bakeAll l) (l.map cleanupAliases) ∧
    List.Pairwise (fun a b => ∃ ka kb, makePrefixKey a.name = some ka ∧
      makePrefixKey b.name = some kb ∧ keyLeB ka kb = true) (bakeAll l) := by
  have hnames : ∀ s ∈ l.map cleanupAliases, (makePrefixKey s.name).isSome = true := by
    intro s hs
    rw [List.mem_map] at hs
    obtain ⟨t, ht, rfl⟩ := hs
    exact h t ht
  refine ⟨?_, List.perm_insertionSort _ _, ?_⟩
  · have hall : (l.map cleanupAliases).all (fun s => (makePrefixKey s.name).isSome) = true := by
      rw [List.all_eq_true]
      exact hnames
    simp [bakeAllOk, hall]
  · have hsorted : List.Sorted schemeSortRel (bakeAll l) := List.sorted_insertionSort _ _
    have hmem : ∀ s ∈ bakeAll l, (makePrefixKey s.name).isSome = true := by
      intro s hs
      exact hnames s ((List.perm_insertionSort schemeSortRel (l.map cleanupAliases)).subset hs)
    refine List.Pairwise.imp_of_mem ?_ hsorted
    intro a b ha hb hr
    have ha' := hmem a ha
    have hb' := hmem b hb
    cases hka : makePrefixKey a.name with
    | none => rw [hka] at ha'; simp at ha'
    | some ka =>
      cases hkb : makePrefixKey b.name with
      | none => rw [hkb] at hb'; simp at hb'
      | some kb =>
        refine ⟨ka, kb, rfl, rfl, ?_⟩
        unfold schemeSortRel schemeLeB at hr
        rw [hka, hkb] at hr
        exact hr

/-- Witness for C7: the names `_Special`, `1337`, `Apple`, `apple2` come
out as `1337, Apple, apple2, _Special` — `_Special` sorts under `s` (after
the `a`-names, which tie-break `Apple` before `apple2` on the folded full
name) — and the output is pairwise ordered by the `make_prefix` key. -/
theorem bake_output_sorted_witness :
    (bakeAll [mkScheme "_Special" palOne, mkScheme "1337" palTwo, mkScheme "Apple" palThree,
      mkScheme "apple2" palOne]).map Scheme.name = ["1337", "Apple", "apple2", "_Special"] ∧
    List.Pairwise (fun a b => ∃ ka kb, makePrefixKey a.name = some ka ∧
      makePrefixKey b.name = some kb ∧ keyLeB ka kb = true)
      (bakeAll [mkScheme "_Special" palOne, mkScheme "1337" palTwo, mkScheme "Apple" palThree,
        mkScheme "apple2" palOne]) := by
  have h := bake_output_sorted
    [mkScheme "_Special" palOne, mkScheme "1337" palTwo, mkScheme "Apple" palThree,
      mkScheme "apple2" palOne] (by decide)
  exact ⟨by decide, h.2.2⟩

/-- Witness for C4 (amended): on the one-record dataset, the versioned
record's name is a key of `version_by_name` and its alias is not. -/
theorem load_existing_version_index_witness :
    (alookup "Foo" (load_existing [entryFoo]).version_by_name).isSome = true ∧
    ¬ (alookup "A1" (load_existing [entryFoo]).version_by_name).isSome = true := by
  have h := load_existing_version_index [entryFoo]
  constructor
  · exact (h.1 "Foo").mpr (by decide)
  · intro hs
    have hmem := (h.1 "A1").mp hs
    revert hmem
    decide
